import Mathlib

/-!
# Verification of the chess rules engine (src/src/chess/ChessGame.ts)

This file is a shallow embedding of the `ChessGame` class.  JavaScript
arrays of optional pieces become `List (Option Piece)`; board coordinates
are `Int` because callers may pass arbitrary (possibly out-of-range)
numbers; `undefined`/`null` cell reads both become `none` (the source only
ever tests them for truthiness).  The single caller-reachable crash of the
source (`this.board[position.row]` being `undefined` when `position.row`
is outside the array, so that the subsequent `[position.col]` access
raises a `TypeError`) is modelled by the `Except`-valued entry point
`makeMoveE`; everywhere else the source indexes the board only at
positions it has already bounds-checked, so the total functions below
agree with the source on every reachable call.
-/

inductive PieceType where
  | king | queen | rook | bishop | knight | pawn
deriving DecidableEq, Repr

inductive PieceColor where
  | white | black
deriving DecidableEq, Repr

/-- `interface Piece`: the optional `hasMoved` field is only ever tested for
truthiness in the source, so a missing field behaves as `false`. -/
structure Piece where
  type : PieceType
  color : PieceColor
  hasMoved : Bool := false
deriving DecidableEq, Repr

/-- `type Position = { row: number; col: number }`.  `Int` so that
out-of-range caller input is representable. -/
structure Pos where
  row : Int
  col : Int
deriving DecidableEq, Repr

/-- The board: `(Piece | null)[][]`. -/
abbrev Board := List (List (Option Piece))

/-- `interface Move` (history record).  `from`/`to` are Lean keywords, hence
`fromSq`/`toSq`. -/
structure Move where
  fromSq : Pos
  toSq : Pos
  piece : Piece
  capturedPiece : Option Piece := none
  isEnPassant : Bool := false
  isCastling : Bool := false
  promotionPiece : Option PieceType := none
deriving DecidableEq, Repr

/-- Winner value: `PieceColor | 'draw'`. -/
inductive GameWinner where
  | color (c : PieceColor)
  | draw
deriving DecidableEq, Repr

/-- The private fields of `ChessGame`. -/
structure GameState where
  board : Board
  currentPlayer : PieceColor
  gameHistory : List Move
  enPassantTarget : Option Pos
  isGameOver : Bool
  winner : Option GameWinner
deriving DecidableEq, Repr

def opposite : PieceColor → PieceColor
  | .white => .black
  | .black => .white

/-- `getPiece(position)`: `this.board[position.row][position.col]`.  This is
the total projection: it returns `none` where the source would return
`undefined` (column out of range) and also `none` where the source would
raise (row out of range); the raising case is modelled by `makeMoveE`. -/
def getPiece (b : Board) (p : Pos) : Option Piece :=
  if 0 ≤ p.row ∧ 0 ≤ p.col then
    match b[p.row.toNat]? with
    | some r => (r[p.col.toNat]?).join
    | none => none
  else none

/-- Models the assignment `this.board[p.row][p.col] = v`.  Every write the
source performs is at an in-range position (see the frame theorem), where
`List.set` is exact. -/
def setPiece (b : Board) (p : Pos) (v : Option Piece) : Board :=
  if 0 ≤ p.row ∧ 0 ≤ p.col then
    match b[p.row.toNat]? with
    | some r => b.set p.row.toNat (r.set p.col.toNat v)
    | none => b
  else b

/-- `isValidPosition(position)`. -/
def isValidPosition (p : Pos) : Bool :=
  decide (0 ≤ p.row) && decide (p.row < 8) && decide (0 ≤ p.col) && decide (p.col < 8)

/-- The 64 squares in the row-major order of every `for (row) for (col)`
scan in the source. -/
def squaresList : List Pos :=
  (List.range 8).flatMap (fun r => (List.range 8).map (fun c => ⟨(r : Int), (c : Int)⟩))

/-- The forward-move block of `getPawnMoves`, with the colour-derived
`direction` and `startRow` already computed: one square forward if empty,
plus the double step from the start row if that is also empty. -/
def pawnForward (b : Board) (f : Pos) (dir startRow : Int) : List Pos :=
  if isValidPosition ⟨f.row + dir, f.col⟩ && (getPiece b ⟨f.row + dir, f.col⟩).isNone then
    ⟨f.row + dir, f.col⟩ ::
      (if f.row = startRow then
        (if isValidPosition ⟨f.row + 2 * dir, f.col⟩ &&
            (getPiece b ⟨f.row + 2 * dir, f.col⟩).isNone then
          [(⟨f.row + 2 * dir, f.col⟩ : Pos)]
         else [])
       else [])
  else []

/-- One iteration of the capture loop of `getPawnMoves` (`colOffset` is -1
or 1): push the diagonal square when it holds an enemy of `c`, and push it
(again) when it equals the en-passant target. -/
def pawnCapture (b : Board) (ep : Option Pos) (f : Pos) (c : PieceColor) (dir off : Int) :
    List Pos :=
  if isValidPosition ⟨f.row + dir, f.col + off⟩ then
    (match getPiece b ⟨f.row + dir, f.col + off⟩ with
     | some tp => if tp.color ≠ c then [(⟨f.row + dir, f.col + off⟩ : Pos)] else []
     | none => []) ++
    (match ep with
     | some e =>
       if f.row + dir = e.row ∧ f.col + off = e.col then
         [(⟨f.row + dir, f.col + off⟩ : Pos)]
       else []
     | none => [])
  else []

/-- `getPawnMoves(from, color)`: forward block then the two capture
iterations, in source order. -/
def getPawnMoves (b : Board) (ep : Option Pos) (f : Pos) (c : PieceColor) : List Pos :=
  let dir : Int := if c = .white then -1 else 1
  let startRow : Int := if c = .white then 6 else 1
  pawnForward b f dir startRow ++ pawnCapture b ep f c dir (-1) ++ pawnCapture b ep f c dir 1

/-- One ray of the sliding-piece loop `for (let i = 1; i < 8; i++)`:
walk from `p` in direction `d`, collecting empty squares, stopping at the
first occupied square and including it only when it holds an enemy of
`fc` (the colour of the piece at the ray's origin). -/
def rayWalk (b : Board) (fc : PieceColor) (p : Pos) (d : Int × Int) : Nat → List Pos
  | 0 => []
  | n + 1 =>
    if isValidPosition ⟨p.row + d.1, p.col + d.2⟩ then
      match getPiece b ⟨p.row + d.1, p.col + d.2⟩ with
      | none =>
        (⟨p.row + d.1, p.col + d.2⟩ : Pos) :: rayWalk b fc ⟨p.row + d.1, p.col + d.2⟩ d n
      | some q => if q.color ≠ fc then [(⟨p.row + d.1, p.col + d.2⟩ : Pos)] else []
    else []

/-- `getRookMoves(from)`.  The source reads `this.getPiece(from)!.color`
inside the loop; on every reachable call `from` is occupied. -/
def getRookMoves (b : Board) (f : Pos) : List Pos :=
  match getPiece b f with
  | none => []
  | some fp =>
    ([(-1, 0), (1, 0), (0, -1), (0, 1)] : List (Int × Int)).flatMap
      (fun d => rayWalk b fp.color f d 7)

/-- `getBishopMoves(from)`. -/
def getBishopMoves (b : Board) (f : Pos) : List Pos :=
  match getPiece b f with
  | none => []
  | some fp =>
    ([(-1, -1), (-1, 1), (1, -1), (1, 1)] : List (Int × Int)).flatMap
      (fun d => rayWalk b fp.color f d 7)

/-- The shared body of the two fixed-offset-table generators
(`getKnightMoves` and the step part of `getKingMoves`): a destination is
included when on the board and empty or enemy-occupied. -/
def offsetMoves (b : Board) (f : Pos) (offs : List (Int × Int)) : List Pos :=
  match getPiece b f with
  | none => []
  | some fp =>
    offs.filterMap
      (fun d =>
        if isValidPosition ⟨f.row + d.1, f.col + d.2⟩ then
          match getPiece b ⟨f.row + d.1, f.col + d.2⟩ with
          | none => some (⟨f.row + d.1, f.col + d.2⟩ : Pos)
          | some q => if q.color ≠ fp.color then some (⟨f.row + d.1, f.col + d.2⟩ : Pos) else none
        else none)

/-- `getKnightMoves(from)`. -/
def getKnightMoves (b : Board) (f : Pos) : List Pos :=
  offsetMoves b f [(-2, -1), (-2, 1), (-1, -2), (-1, 2), (1, -2), (1, 2), (2, -1), (2, 1)]

/-- The eight one-step king directions of `getKingMoves` (shared by both
generation modes). -/
def kingStepMoves (b : Board) (f : Pos) : List Pos :=
  offsetMoves b f [(-1, -1), (-1, 0), (-1, 1), (0, -1), (0, 1), (1, -1), (1, 0), (1, 1)]

/-- `calculatePossibleMoves(from, piece, true)`: attack-only generation,
used by the check detector; for kings it is exactly the eight step moves
(the castling block is guarded by `if (!forCheckValidation)`).  Defined
separately from the full-mode generator to break the source's
castling/check recursion, exactly as the mode flag does in the source. -/
def attackMoves (b : Board) (ep : Option Pos) (f : Pos) (q : Piece) : List Pos :=
  match q.type with
  | .pawn => getPawnMoves b ep f q.color
  | .rook => getRookMoves b f
  | .knight => getKnightMoves b f
  | .bishop => getBishopMoves b f
  | .queen => getRookMoves b f ++ getBishopMoves b f
  | .king => kingStepMoves b f

/-- `findKing(color)`: first king of the colour in row-major order. -/
def findKing (b : Board) (c : PieceColor) : Option Pos :=
  squaresList.find? (fun p =>
    match getPiece b p with
    | some q => decide (q.type = .king) && decide (q.color = c)
    | none => false)

/-- `isInCheck(color)`: scan every opposing piece's attack-only moves for
the king's square. -/
def isInCheck (b : Board) (ep : Option Pos) (c : PieceColor) : Bool :=
  match findKing b c with
  | none => false
  | some k =>
    squaresList.any (fun p =>
      match getPiece b p with
      | some q =>
        decide (q.color ≠ c) &&
          (attackMoves b ep p q).any (fun m => decide (m.row = k.row) && decide (m.col = k.col))
      | none => false)

/-- The source's `rook && !rook.hasMoved` test on a corner square: some
piece is there and its `hasMoved` flag is unset.  Note that the source
checks neither the type nor the colour of that piece. -/
def unmovedAt (b : Board) (p : Pos) : Bool :=
  match getPiece b p with
  | some q => !q.hasMoved
  | none => false

/-- The castling block of `getKingMoves` (full mode only): king unmoved and
not in check; for each wing, the same-rank corner square holds some
unmoved piece and the squares strictly between king-column 4 and the
corner are empty. -/
def castlingMoves (b : Board) (ep : Option Pos) (f : Pos) : List Pos :=
  match getPiece b f with
  | none => []
  | some piece =>
    if !piece.hasMoved && !isInCheck b ep piece.color then
      (if unmovedAt b ⟨f.row, 7⟩ && (getPiece b ⟨f.row, 5⟩).isNone
          && (getPiece b ⟨f.row, 6⟩).isNone then
        [⟨f.row, 6⟩]
      else []) ++
      (if unmovedAt b ⟨f.row, 0⟩ && (getPiece b ⟨f.row, 1⟩).isNone
          && (getPiece b ⟨f.row, 2⟩).isNone && (getPiece b ⟨f.row, 3⟩).isNone then
        [⟨f.row, 2⟩]
      else [])
    else []

/-- `getKingMoves(from, forCheckValidation)`. -/
def getKingMoves (b : Board) (ep : Option Pos) (f : Pos) (forCheckValidation : Bool) : List Pos :=
  kingStepMoves b f ++ (if forCheckValidation then [] else castlingMoves b ep f)

/-- `calculatePossibleMoves(from, piece, forCheckValidation)`. -/
def calculatePossibleMoves (b : Board) (ep : Option Pos) (f : Pos) (q : Piece)
    (forCheckValidation : Bool) : List Pos :=
  match q.type with
  | .pawn => getPawnMoves b ep f q.color
  | .rook => getRookMoves b f
  | .knight => getKnightMoves b f
  | .bishop => getBishopMoves b f
  | .queen => getRookMoves b f ++ getBishopMoves b f
  | .king => getKingMoves b ep f forCheckValidation

/-- `wouldBeInCheck(from, to)`: place the mover at `to`, clear `from`, test
check, restore.  In this pure embedding the restoration is implicit: the
test runs on the modified copy of the board.  On every reachable call
`from` is occupied (`getPossibleMoves` returns early otherwise). -/
def wouldBeInCheck (b : Board) (ep : Option Pos) (f t : Pos) : Bool :=
  match getPiece b f with
  | none => false
  | some mp => isInCheck (setPiece (setPiece b t (some mp)) f none) ep mp.color

/-- `getPossibleMoves(from)`: full-mode candidates filtered by the
simulate-and-test legality filter (the spec's `getLegalMoves`). -/
def getPossibleMoves (s : GameState) (f : Pos) : List Pos :=
  match getPiece s.board f with
  | none => []
  | some piece =>
    if piece.color ≠ s.currentPlayer then []
    else
      (calculatePossibleMoves s.board s.enPassantTarget f piece false).filter
        (fun t => !wouldBeInCheck s.board s.enPassantTarget f t)

/-- The `Move` record built at the start of `makeMove` (step 3 of the
spec): a snapshot of the moving piece and of any occupant of `to`. -/
def buildMove (b : Board) (f t : Pos) (piece : Piece) : Move :=
  { fromSq := f, toSq := t, piece := piece, capturedPiece := getPiece b t }

/-- Promotion branch of `handleSpecialMoves`: if the recorded piece is a
pawn landing on row 0 or 7, record `promotionPiece` (default queen: the
source's `promotionPiece || 'queen'`) and overwrite the *recorded copy's*
type.  The source mutates only `move.piece`, not the board occupant. -/
def promoStep (m : Move) (promo : Option PieceType) : Move :=
  if m.piece.type = .pawn ∧ (m.toSq.row = 0 ∨ m.toSq.row = 7) then
    { m with promotionPiece := some (promo.getD .queen),
             piece := { m.piece with type := promo.getD .queen } }
  else m

/-- The type the recorded `move.piece` has after the promotion branch of
`handleSpecialMoves` ran: the (defaulted) promotion choice when a recorded
pawn landed on a far rank, the original type otherwise.  The later castle
and en-passant branches test this value. -/
def promoType (q : Piece) (t : Pos) (promo : Option PieceType) : PieceType :=
  if q.type = .pawn ∧ (t.row = 0 ∨ t.row = 7) then promo.getD .queen else q.type

/-- Castling branch of `handleSpecialMoves`: when the recorded piece is a
king moving exactly two columns, relocate whatever occupies the chosen
corner (col 7 when moving toward higher columns, else col 0) to col 5
resp. col 3 of the origin's row. -/
def castleStep (b : Board) (m : Move) : Move × Board :=
  if m.piece.type = .king ∧ (m.toSq.col - m.fromSq.col).natAbs = 2 then
    if m.fromSq.col < m.toSq.col then
      (({ m with isCastling := true } : Move),
        setPiece (setPiece b ⟨m.fromSq.row, 5⟩ (getPiece b ⟨m.fromSq.row, 7⟩))
          ⟨m.fromSq.row, 7⟩ none)
    else
      (({ m with isCastling := true } : Move),
        setPiece (setPiece b ⟨m.fromSq.row, 3⟩ (getPiece b ⟨m.fromSq.row, 0⟩))
          ⟨m.fromSq.row, 0⟩ none)
  else (m, b)

/-- The square holding the pawn an en-passant capture removes: one rank
behind the destination, from the mover's point of view. -/
def epCapturedSq (c : PieceColor) (t : Pos) : Pos :=
  ⟨if c = .white then t.row + 1 else t.row - 1, t.col⟩

/-- En-passant branch of `handleSpecialMoves`: when the recorded piece is a
pawn landing exactly on the en-passant target, remove the pawn one rank
behind the destination (direction from the mover's colour) and record it
as the captured piece. -/
def epStep (b : Board) (ep : Option Pos) (m : Move) : Move × Board :=
  match ep with
  | some e =>
    if m.piece.type = .pawn ∧ m.toSq.row = e.row ∧ m.toSq.col = e.col then
      (({ m with
            isEnPassant := true
            capturedPiece := getPiece b (epCapturedSq m.piece.color m.toSq) } : Move),
        setPiece b (epCapturedSq m.piece.color m.toSq) none)
    else (m, b)
  | none => (m, b)

/-- The corner and rook-destination squares `castleStep` writes, as a
function of the king's origin and destination. -/
def castleSquares (f t : Pos) : List Pos :=
  if f.col < t.col then [⟨f.row, 5⟩, ⟨f.row, 7⟩] else [⟨f.row, 3⟩, ⟨f.row, 0⟩]

/-- All board squares a successful `makeMove(f, t, promo)` of piece `q`
may write: origin and destination, the two rook squares when the executed
move is a castling, and the captured pawn's square when it is an
en-passant capture. -/
def changedSquares (ep : Option Pos) (f t : Pos) (q : Piece) (promo : Option PieceType) :
    List Pos :=
  [f, t] ++
  (if promoType q t promo = .king ∧ (t.col - f.col).natAbs = 2 then castleSquares f t
   else []) ++
  (if promoType q t promo = .pawn ∧ ep = some t then [epCapturedSq q.color t] else [])

/-- `handleSpecialMoves(move, promotionPiece)`: promotion, castling, then
en passant, in source order. -/
def handleSpecialMoves (b : Board) (ep : Option Pos) (m : Move) (promo : Option PieceType) :
    Move × Board :=
  let m1 := promoStep m promo
  let r2 := castleStep b m1
  epStep r2.2 ep r2.1

/-- `updateEnPassantTarget(move)`: recomputed from scratch after every
successful move. -/
def updateEnPassantTarget (m : Move) : Option Pos :=
  if m.piece.type = .pawn ∧ (m.toSq.row - m.fromSq.row).natAbs = 2 then
    some ⟨if m.piece.color = .white then m.toSq.row + 1 else m.toSq.row - 1, m.toSq.col⟩
  else none

/-- `hasValidMoves(color)`: some square holds a piece of the colour with a
non-empty legality-filtered move list. -/
def hasValidMoves (s : GameState) (c : PieceColor) : Bool :=
  squaresList.any (fun p =>
    match getPiece s.board p with
    | some q => decide (q.color = c) && !(getPossibleMoves s p).isEmpty
    | none => false)

/-- `checkGameEnd()`: with the (already flipped) current player, finish the
game when that player has no valid move; the winner is the other colour
if in check, else a draw. -/
def checkGameEnd (s : GameState) : GameState :=
  if hasValidMoves s s.currentPlayer then s
  else
    { s with
      isGameOver := true
      winner :=
        some (if isInCheck s.board s.enPassantTarget s.currentPlayer then
          GameWinner.color (opposite s.currentPlayer)
        else GameWinner.draw) }

/-- Steps 3 to 7 of `makeMove` after validation succeeded: special-move
side effects, then `board[to] = { ...piece, hasMoved: true }` (note: the
*original* `piece`, whose `type` the promotion branch never changed),
`board[from] = null`, en-passant recomputation, history append, player
flip. -/
def applyMove (s : GameState) (f t : Pos) (promo : Option PieceType) (piece : Piece) :
    GameState :=
  let r := handleSpecialMoves s.board s.enPassantTarget (buildMove s.board f t piece) promo
  let b2 := setPiece r.2 t (some { piece with hasMoved := true })
  let b3 := setPiece b2 f none
  { s with
    board := b3
    enPassantTarget := updateEnPassantTarget r.1
    gameHistory := s.gameHistory ++ [r.1]
    currentPlayer := opposite s.currentPlayer }

/-- `makeMove(from, to, promotionPiece)` (the spec's `attemptMove`),
returning the success flag together with the resulting state.  Rejections
return the state unchanged, mirroring the early `return false` paths. -/
def makeMove (s : GameState) (f t : Pos) (promo : Option PieceType) : Bool × GameState :=
  if s.isGameOver then (false, s)
  else
    match getPiece s.board f with
    | none => (false, s)
    | some piece =>
      if piece.color ≠ s.currentPlayer then (false, s)
      else if (getPossibleMoves s f).any
          (fun m => decide (m.row = t.row) && decide (m.col = t.col)) then
        (true, checkGameEnd (applyMove s f t promo piece))
      else (false, s)

/-- `makeMove` with the source's one caller-reachable crash made explicit:
when the game is not already over, `const piece = this.getPiece(from)`
evaluates `this.board[from.row][from.col]`, which raises a `TypeError`
whenever `from.row` is outside the board array (the early
`if (this.isGameOver) return false` fires first).  Every other board
access of a call on an 8-by-8 state is bounds-checked before indexing. -/
def makeMoveE (s : GameState) (f t : Pos) (promo : Option PieceType) :
    Except Unit (Bool × GameState) :=
  if s.isGameOver then .ok (false, s)
  else if 0 ≤ f.row ∧ f.row < (s.board.length : Int) then .ok (makeMove s f t promo)
  else .error ()

/-- Run a list of `makeMove` requests; the flag is true when every single
call succeeded. -/
def runMovesOk (s : GameState) : List (Pos × Pos × Option PieceType) → Bool × GameState
  | [] => (true, s)
  | m :: rest =>
    let r := makeMove s m.1 m.2.1 m.2.2
    let r2 := runMovesOk r.2 rest
    (r.1 && r2.1, r2.2)

def pieceOrder : List PieceType :=
  [.rook, .knight, .bishop, .queen, .king, .bishop, .knight, .rook]

def backRow (c : PieceColor) : List (Option Piece) :=
  pieceOrder.map (fun t => some ⟨t, c, false⟩)

def pawnRow (c : PieceColor) : List (Option Piece) :=
  List.replicate 8 (some ⟨.pawn, c, false⟩)

def emptyRow : List (Option Piece) :=
  List.replicate 8 none

/-- `initializeBoard()`: black pieces on rows 0 and 1, white on rows 6
and 7. -/
def initializeBoard : Board :=
  [backRow .black, pawnRow .black, emptyRow, emptyRow, emptyRow, emptyRow,
    pawnRow .white, backRow .white]

/-- The constructor's fresh state. -/
def initialGame : GameState :=
  { board := initializeBoard
    currentPlayer := .white
    gameHistory := []
    enPassantTarget := none
    isGameOver := false
    winner := none }

/-- An 8-by-8 board, as every state the engine ever constructs has. -/
def WFBoard (b : Board) : Prop :=
  b.length = 8 ∧ ∀ i : Fin b.length, (b.get i).length = 8

/-- A game from the initial position in which white marches the a-pawn to
the eighth rank by captures (a4, axb5, b6, bxa7, axb8) while black plays
b5, h6, h5, h4; the final call promotes with no explicit choice. -/
def seq9 : List (Pos × Pos × Option PieceType) :=
  [ (⟨6, 0⟩, ⟨4, 0⟩, none), (⟨1, 1⟩, ⟨3, 1⟩, none),
    (⟨4, 0⟩, ⟨3, 1⟩, none), (⟨1, 7⟩, ⟨2, 7⟩, none),
    (⟨3, 1⟩, ⟨2, 1⟩, none), (⟨2, 7⟩, ⟨3, 7⟩, none),
    (⟨2, 1⟩, ⟨1, 0⟩, none), (⟨3, 7⟩, ⟨4, 7⟩, none),
    (⟨1, 0⟩, ⟨0, 1⟩, none) ]

/-- A game from the initial position after which white (king on a5, pawn
on c5, black rook on h5 behind black's freshly double-pushed b-pawn) has
the en-passant capture c5xb6 as a legal move even though executing it
exposes the white king to the rook along the fifth rank. -/
def seq16 : List (Pos × Pos × Option PieceType) :=
  [ (⟨6, 2⟩, ⟨4, 2⟩, none), (⟨1, 7⟩, ⟨3, 7⟩, none),
    (⟨4, 2⟩, ⟨3, 2⟩, none), (⟨3, 7⟩, ⟨4, 7⟩, none),
    (⟨6, 4⟩, ⟨5, 4⟩, none), (⟨0, 7⟩, ⟨3, 7⟩, none),
    (⟨7, 4⟩, ⟨6, 4⟩, none), (⟨1, 0⟩, ⟨2, 0⟩, none),
    (⟨6, 4⟩, ⟨5, 3⟩, none), (⟨0, 6⟩, ⟨2, 7⟩, none),
    (⟨5, 3⟩, ⟨4, 2⟩, none), (⟨2, 7⟩, ⟨0, 6⟩, none),
    (⟨4, 2⟩, ⟨4, 1⟩, none), (⟨0, 6⟩, ⟨2, 7⟩, none),
    (⟨4, 1⟩, ⟨3, 0⟩, none), (⟨1, 1⟩, ⟨3, 1⟩, none) ]

/-- A state in which white's never-moved king stands on its home square
with the two kingside squares empty, but the kingside corner holds an
unmoved *black knight* rather than a white rook. -/
def cex6 : GameState :=
  { board :=
      [ some ⟨.king, .black, false⟩ :: List.replicate 7 none,
        emptyRow, emptyRow, emptyRow, emptyRow, emptyRow, emptyRow,
        [none, none, none, none, some ⟨.king, .white, false⟩, none, none,
          some ⟨.knight, .black, false⟩] ]
    currentPlayer := .white
    gameHistory := []
    enPassantTarget := none
    isGameOver := false
    winner := none }

/-- A finished state (used to witness that a finished game rejects every
call): the initial position with the terminal flag set. -/
def finishedGame : GameState :=
  { initialGame with isGameOver := true, winner := some (GameWinner.color .black) }

/-! ## Basic board lemmas -/

theorem getPiece_some_bounds {b : Board} {p : Pos} {q : Piece} (h : getPiece b p = some q) :
    0 ≤ p.row ∧ 0 ≤ p.col ∧
      ∃ r, b[p.row.toNat]? = some r ∧ r[p.col.toNat]? = some (some q) := by
  unfold getPiece at h
  split at h
  · rename_i hpos
    split at h
    · rename_i r hr
      refine ⟨hpos.1, hpos.2, r, hr, ?_⟩
      cases hc : r[p.col.toNat]? with
      | none => rw [hc] at h; simp [Option.join] at h
      | some o => rw [hc] at h; simp [Option.join] at h; rw [h]
    · exact absurd h (by simp)
  · exact absurd h (by simp)

theorem getPiece_setPiece_ne {b : Board} {p x : Pos} {v : Option Piece} (h : x ≠ p) :
    getPiece (setPiece b p v) x = getPiece b x := by
  unfold setPiece
  split
  · rename_i hp
    split
    · rename_i r hr
      unfold getPiece
      split
      · rename_i hx
        by_cases hrow : x.row.toNat = p.row.toNat
        · have hroweq : x.row = p.row := by omega
          have hcol : x.col ≠ p.col := by
            intro hc; exact h (by cases x; cases p; simp_all)
          have hcoln : x.col.toNat ≠ p.col.toNat := by omega
          have hlen : p.row.toNat < b.length := by
            by_contra hlen
            rw [List.getElem?_eq_none (by omega)] at hr
            exact absurd hr (by simp)
          rw [hrow, List.getElem?_set_self hlen, hr]
          simp only [Option.some.injEq]
          rw [List.getElem?_set_ne (by omega)]
        · rw [List.getElem?_set_ne (by omega)]
      · rfl
    · rfl
  · rfl

theorem getPiece_setPiece_self {b : Board} {p : Pos} {v : Option Piece}
    {r : List (Option Piece)} (h0 : 0 ≤ p.row) (h1 : 0 ≤ p.col)
    (hr : b[p.row.toNat]? = some r) (hc : p.col.toNat < r.length) :
    getPiece (setPiece b p v) p = v := by
  have hlen : p.row.toNat < b.length := by
    by_contra hlen
    rw [List.getElem?_eq_none (by omega)] at hr
    exact absurd hr (by simp)
  unfold setPiece getPiece
  rw [if_pos ⟨h0, h1⟩, hr]
  rw [if_pos ⟨h0, h1⟩, List.getElem?_set_self hlen]
  simp [List.getElem?_set_self hc]

theorem getPiece_setPiece_self_of_some {b : Board} {p : Pos} {q : Piece} {v : Option Piece}
    (h : getPiece b p = some q) : getPiece (setPiece b p v) p = v := by
  obtain ⟨h0, h1, r, hr, hc⟩ := getPiece_some_bounds h
  have : p.col.toNat < r.length := by
    by_contra hlen
    rw [List.getElem?_eq_none (by omega)] at hc
    exact absurd hc (by simp)
  exact getPiece_setPiece_self h0 h1 hr this

theorem length_setPiece (b : Board) (p : Pos) (v : Option Piece) :
    (setPiece b p v).length = b.length := by
  unfold setPiece
  split
  · split <;> simp
  · rfl

theorem rowLength_setPiece (b : Board) (p : Pos) (v : Option Piece) (i : Nat) :
    ((setPiece b p v)[i]?).map List.length = (b[i]?).map List.length := by
  unfold setPiece
  split
  · split
    · rename_i r hr
      by_cases hi : i = p.row.toNat
      · have hlen : p.row.toNat < b.length := by
          by_contra hlen
          rw [List.getElem?_eq_none (by omega)] at hr
          exact absurd hr (by simp)
        rw [hi, List.getElem?_set_self hlen, hr]
        simp
      · rw [List.getElem?_set_ne (by omega)]
    · rfl
  · rfl

theorem WFBoard_rows {b : Board} (h : WFBoard b) {i : Nat} {r : List (Option Piece)}
    (hr : b[i]? = some r) : r.length = 8 := by
  obtain ⟨hlen, hrows⟩ := h
  have hi : i < b.length := by
    by_contra hlen2
    rw [List.getElem?_eq_none (by omega)] at hr
    exact absurd hr (by simp)
  have := hrows ⟨i, hi⟩
  rw [List.get_eq_getElem] at this
  rw [List.getElem?_eq_getElem hi] at hr
  simp only [Option.some.injEq] at hr
  rw [← hr]
  exact this

theorem WFBoard_setPiece {b : Board} (h : WFBoard b) (p : Pos) (v : Option Piece) :
    WFBoard (setPiece b p v) := by
  refine ⟨by rw [length_setPiece]; exact h.1, ?_⟩
  intro i
  rw [List.get_eq_getElem]
  have hi : i.1 < (setPiece b p v).length := i.2
  have h1 : (setPiece b p v)[i.1]? = some ((setPiece b p v)[i.1]) :=
    List.getElem?_eq_getElem hi
  have h2 := rowLength_setPiece b p v i.1
  rw [h1] at h2
  cases hb : b[i.1]? with
  | none =>
    have hlt : i.1 < b.length := by
      have := length_setPiece b p v
      omega
    rw [List.getElem?_eq_getElem hlt] at hb
    exact absurd hb (by simp)
  | some r =>
    rw [hb] at h2
    simp at h2
    have := WFBoard_rows h hb
    omega

theorem getPiece_valid_of_WF {b : Board} {p : Pos} {q : Piece} (hWF : WFBoard b)
    (h : getPiece b p = some q) : isValidPosition p = true := by
  obtain ⟨h0, h1, r, hr, hc⟩ := getPiece_some_bounds h
  have hrow : p.row.toNat < b.length := by
    by_contra hlen
    rw [List.getElem?_eq_none (by omega)] at hr
    exact absurd hr (by simp)
  have hcol : p.col.toNat < r.length := by
    by_contra hlen
    rw [List.getElem?_eq_none (by omega)] at hc
    exact absurd hc (by simp)
  have h8 := WFBoard_rows hWF hr
  have hblen := hWF.1
  simp only [isValidPosition, Bool.and_eq_true, decide_eq_true_eq]
  omega

theorem getPiece_setPiece_valid_of_WF {b : Board} {p : Pos} {v : Option Piece}
    (hWF : WFBoard b) (hp : isValidPosition p = true) :
    getPiece (setPiece b p v) p = v := by
  simp only [isValidPosition, Bool.and_eq_true, decide_eq_true_eq] at hp
  have hrow : p.row.toNat < b.length := by rw [hWF.1]; omega
  have hr : b[p.row.toNat]? = some (b[p.row.toNat]) := List.getElem?_eq_getElem hrow
  have h8 := WFBoard_rows hWF hr
  exact getPiece_setPiece_self (by omega) (by omega) hr (by omega)

/-! ## State-machine lemmas -/

theorem getPossibleMoves_congr {s₁ s₂ : GameState} (hb : s₁.board = s₂.board)
    (he : s₁.enPassantTarget = s₂.enPassantTarget)
    (hp : s₁.currentPlayer = s₂.currentPlayer) :
    getPossibleMoves s₁ = getPossibleMoves s₂ := by
  funext f
  unfold getPossibleMoves
  rw [hb, he, hp]

theorem hasValidMoves_congr {s₁ s₂ : GameState} (hb : s₁.board = s₂.board)
    (he : s₁.enPassantTarget = s₂.enPassantTarget)
    (hp : s₁.currentPlayer = s₂.currentPlayer) (c : PieceColor) :
    hasValidMoves s₁ c = hasValidMoves s₂ c := by
  unfold hasValidMoves
  rw [hb, getPossibleMoves_congr hb he hp]

theorem checkGameEnd_board (s : GameState) : (checkGameEnd s).board = s.board := by
  unfold checkGameEnd; split <;> rfl

theorem checkGameEnd_enPassantTarget (s : GameState) :
    (checkGameEnd s).enPassantTarget = s.enPassantTarget := by
  unfold checkGameEnd; split <;> rfl

theorem checkGameEnd_currentPlayer (s : GameState) :
    (checkGameEnd s).currentPlayer = s.currentPlayer := by
  unfold checkGameEnd; split <;> rfl

theorem checkGameEnd_gameHistory (s : GameState) :
    (checkGameEnd s).gameHistory = s.gameHistory := by
  unfold checkGameEnd; split <;> rfl

theorem checkGameEnd_spec (s : GameState) :
    (hasValidMoves s s.currentPlayer = true → checkGameEnd s = s) ∧
    (hasValidMoves s s.currentPlayer = false →
      (checkGameEnd s).isGameOver = true ∧
      (checkGameEnd s).winner =
        some (if isInCheck s.board s.enPassantTarget s.currentPlayer then
          GameWinner.color (opposite s.currentPlayer)
        else GameWinner.draw)) := by
  unfold checkGameEnd
  constructor
  · intro h; rw [if_pos h]
  · intro h; rw [if_neg (by simp [h])]; exact ⟨rfl, rfl⟩

theorem any_pos_iff_mem {l : List Pos} {t : Pos} :
    (l.any fun m => decide (m.row = t.row) && decide (m.col = t.col)) = true ↔ t ∈ l := by
  rw [List.any_eq_true]
  constructor
  · rintro ⟨m, hm, hmt⟩
    simp only [Bool.and_eq_true, decide_eq_true_eq] at hmt
    have : m = t := by cases m; cases t; simp_all
    rw [← this]; exact hm
  · intro h
    exact ⟨t, h, by simp⟩

/-- Complete case analysis of `makeMove`: the four rejection paths return
`(false, s)`; the success path runs `applyMove` then `checkGameEnd`. -/
theorem makeMove_cases (s : GameState) (f t : Pos) (p : Option PieceType) :
    (s.isGameOver = true ∧ makeMove s f t p = (false, s)) ∨
    (s.isGameOver = false ∧ getPiece s.board f = none ∧ makeMove s f t p = (false, s)) ∨
    (∃ q, s.isGameOver = false ∧ getPiece s.board f = some q ∧
      q.color ≠ s.currentPlayer ∧ makeMove s f t p = (false, s)) ∨
    (∃ q, s.isGameOver = false ∧ getPiece s.board f = some q ∧
      q.color = s.currentPlayer ∧ t ∉ getPossibleMoves s f ∧ makeMove s f t p = (false, s)) ∨
    (∃ q, s.isGameOver = false ∧ getPiece s.board f = some q ∧
      q.color = s.currentPlayer ∧ t ∈ getPossibleMoves s f ∧
      makeMove s f t p = (true, checkGameEnd (applyMove s f t p q))) := by
  unfold makeMove
  split
  · rename_i hgo
    exact Or.inl ⟨hgo, rfl⟩
  · rename_i hgo
    have hgo' : s.isGameOver = false := by simpa using hgo
    split
    · rename_i hq
      exact Or.inr (Or.inl ⟨hgo', hq, rfl⟩)
    · rename_i q hq
      split
      · rename_i hc
        exact Or.inr (Or.inr (Or.inl ⟨q, hgo', hq, hc, rfl⟩))
      · rename_i hc
        have hc' : q.color = s.currentPlayer := by simpa using hc
        split
        · rename_i hm
          exact Or.inr (Or.inr (Or.inr (Or.inr
            ⟨q, hgo', hq, hc', any_pos_iff_mem.1 hm, rfl⟩)))
        · rename_i hm
          exact Or.inr (Or.inr (Or.inr (Or.inl
            ⟨q, hgo', hq, hc', fun hcon => hm (any_pos_iff_mem.2 hcon), rfl⟩)))

theorem makeMove_fail_frame {s : GameState} {f t : Pos} {p : Option PieceType}
    (h : (makeMove s f t p).1 = false) : (makeMove s f t p).2 = s := by
  rcases makeMove_cases s f t p with ⟨_, he⟩ | ⟨_, _, he⟩ | ⟨q, _, _, _, he⟩ |
    ⟨q, _, _, _, _, he⟩ | ⟨q, _, _, _, _, he⟩ <;> rw [he]
  rw [he] at h
  exact absurd h (by simp)

theorem makeMove_succ_char {s : GameState} {f t : Pos} {p : Option PieceType}
    (h : (makeMove s f t p).1 = true) :
    ∃ q, s.isGameOver = false ∧ getPiece s.board f = some q ∧
      q.color = s.currentPlayer ∧ t ∈ getPossibleMoves s f ∧
      makeMove s f t p = (true, checkGameEnd (applyMove s f t p q)) := by
  rcases makeMove_cases s f t p with ⟨_, he⟩ | ⟨_, _, he⟩ | ⟨q, _, _, _, he⟩ |
    ⟨q, _, _, _, _, he⟩ | ⟨q, h1, h2, h3, h4, he⟩
  · rw [he] at h; exact absurd h (by simp)
  · rw [he] at h; exact absurd h (by simp)
  · rw [he] at h; exact absurd h (by simp)
  · rw [he] at h; exact absurd h (by simp)
  · exact ⟨q, h1, h2, h3, h4, he⟩

theorem makeMove_of_gameOver {s : GameState} (h : s.isGameOver = true) (f t : Pos)
    (p : Option PieceType) : makeMove s f t p = (false, s) := by
  unfold makeMove
  rw [if_pos h]

theorem runMovesOk_of_gameOver {s : GameState} (h : s.isGameOver = true)
    (ms : List (Pos × Pos × Option PieceType)) : (runMovesOk s ms).2 = s := by
  induction ms with
  | nil => rfl
  | cons m rest ih =>
    unfold runMovesOk
    rw [makeMove_of_gameOver h]
    exact ih

/-! ## Candidate-generation lemmas -/


theorem mem_rayWalk_valid {b : Board} {fc : PieceColor} {d : Int × Int} {t : Pos} :
    ∀ {n : Nat} {p : Pos}, t ∈ rayWalk b fc p d n → isValidPosition t = true := by
  intro n
  induction n with
  | zero => intro p h; simp [rayWalk] at h
  | succ n ih =>
    intro p h
    unfold rayWalk at h
    split at h
    · rename_i hv
      split at h
      · rcases List.mem_cons.1 h with rfl | h2
        · exact hv
        · exact ih h2
      · split at h
        · rcases List.mem_singleton.1 h with rfl
          exact hv
        · simp at h
    · simp at h

theorem mem_rayWalk_mono {b : Board} {fc : PieceColor} {d : Int × Int} {t : Pos} :
    ∀ {n : Nat} {p : Pos}, t ∈ rayWalk b fc p d n →
      (0 < d.1 → p.row < t.row) ∧ (d.1 < 0 → t.row < p.row) ∧
      (0 < d.2 → p.col < t.col) ∧ (d.2 < 0 → t.col < p.col) := by
  intro n
  induction n with
  | zero => intro p h; simp [rayWalk] at h
  | succ n ih =>
    intro p h
    unfold rayWalk at h
    split at h
    · split at h
      · rcases List.mem_cons.1 h with rfl | h2
        · refine ⟨?_, ?_, ?_, ?_⟩ <;> intro hd <;> simp <;> omega
        · have h3 := ih h2
          simp only at h3
          refine ⟨?_, ?_, ?_, ?_⟩ <;> intro hd
          · have := h3.1 hd; omega
          · have := h3.2.1 hd; omega
          · have := h3.2.2.1 hd; omega
          · have := h3.2.2.2 hd; omega
      · split at h
        · rcases List.mem_singleton.1 h with rfl
          refine ⟨?_, ?_, ?_, ?_⟩ <;> intro hd <;> simp <;> omega
        · simp at h
    · simp at h

theorem mem_offsetMoves {b : Board} {f : Pos} {offs : List (Int × Int)} {t : Pos}
    (h : t ∈ offsetMoves b f offs) :
    isValidPosition t = true ∧ ∃ d ∈ offs, t.row = f.row + d.1 ∧ t.col = f.col + d.2 := by
  unfold offsetMoves at h
  split at h
  · simp at h
  · rw [List.mem_filterMap] at h
    obtain ⟨d, hd, hfn⟩ := h
    split at hfn
    · rename_i hv
      split at hfn
      · rw [Option.some.injEq] at hfn
        exact ⟨hfn ▸ hv, d, hd, by rw [← hfn], by rw [← hfn]⟩
      · split at hfn
        · rw [Option.some.injEq] at hfn
          exact ⟨hfn ▸ hv, d, hd, by rw [← hfn], by rw [← hfn]⟩
        · exact absurd hfn (by simp)
    · exact absurd hfn (by simp)

theorem mem_pawnForward {b : Board} {f : Pos} {dir startRow : Int} {t : Pos}
    (h : t ∈ pawnForward b f dir startRow) :
    isValidPosition t = true ∧ t.col = f.col ∧
      (t.row = f.row + dir ∨ (f.row = startRow ∧ t.row = f.row + 2 * dir)) := by
  unfold pawnForward at h
  split at h
  · rename_i hfw
    rw [Bool.and_eq_true] at hfw
    rcases List.mem_cons.1 h with rfl | h2
    · exact ⟨hfw.1, rfl, Or.inl rfl⟩
    · split at h2
      · rename_i hsr
        split at h2
        · rename_i htw
          rw [Bool.and_eq_true] at htw
          rcases List.mem_singleton.1 h2 with rfl
          exact ⟨htw.1, rfl, Or.inr ⟨hsr, rfl⟩⟩
        · simp at h2
      · simp at h2
  · simp at h

theorem mem_pawnCapture {b : Board} {ep : Option Pos} {f : Pos} {c : PieceColor}
    {dir off : Int} {t : Pos} (h : t ∈ pawnCapture b ep f c dir off) :
    isValidPosition t = true ∧ t.row = f.row + dir ∧ t.col = f.col + off := by
  unfold pawnCapture at h
  split at h
  · rename_i hv
    rw [List.mem_append] at h
    rcases h with h | h
    · split at h
      · split at h
        · rcases List.mem_singleton.1 h with rfl
          exact ⟨hv, rfl, rfl⟩
        · simp at h
      · simp at h
    · split at h
      · split at h
        · rcases List.mem_singleton.1 h with rfl
          exact ⟨hv, rfl, rfl⟩
        · simp at h
      · simp at h
  · simp at h

theorem mem_getPawnMoves {b : Board} {ep : Option Pos} {f : Pos} {c : PieceColor} {t : Pos}
    (h : t ∈ getPawnMoves b ep f c) :
    isValidPosition t = true ∧
      (t.row = f.row + (if c = .white then (-1 : Int) else 1) ∨
        (f.row = (if c = .white then (6 : Int) else 1) ∧
          t.row = f.row + 2 * (if c = .white then (-1 : Int) else 1))) := by
  unfold getPawnMoves at h
  rw [List.mem_append, List.mem_append] at h
  rcases h with (h | h) | h
  · obtain ⟨hv, _, hr⟩ := mem_pawnForward h
    exact ⟨hv, hr⟩
  · obtain ⟨hv, hr, _⟩ := mem_pawnCapture h
    exact ⟨hv, Or.inl hr⟩
  · obtain ⟨hv, hr, _⟩ := mem_pawnCapture h
    exact ⟨hv, Or.inl hr⟩

theorem unmovedAt_iff {b : Board} {p : Pos} :
    unmovedAt b p = true ↔ ∃ r, getPiece b p = some r ∧ r.hasMoved = false := by
  unfold unmovedAt
  cases hp : getPiece b p with
  | none => simp
  | some q =>
    simp only [Bool.not_eq_true']
    constructor
    · intro h; exact ⟨q, rfl, h⟩
    · rintro ⟨r, hr, hr2⟩
      rw [Option.some.injEq] at hr
      rw [← hr] at hr2
      exact hr2

theorem mem_castlingMoves_char {b : Board} {ep : Option Pos} {f t : Pos}
    (h : t ∈ castlingMoves b ep f) :
    (t = ⟨f.row, 6⟩ ∨ t = ⟨f.row, 2⟩) ∧ getPiece b t = none ∧
      ∃ k, getPiece b f = some k := by
  unfold castlingMoves at h
  split at h
  · simp at h
  · rename_i k hk
    split at h
    · rw [List.mem_append] at h
      rcases h with h | h
      · split at h
        · rename_i hcond
          rw [Bool.and_eq_true, Bool.and_eq_true] at hcond
          rcases List.mem_singleton.1 h with rfl
          exact ⟨Or.inl rfl, Option.isNone_iff_eq_none.1 hcond.2, k, hk⟩
        · simp at h
      · split at h
        · rename_i hcond
          rw [Bool.and_eq_true, Bool.and_eq_true, Bool.and_eq_true] at hcond
          rcases List.mem_singleton.1 h with rfl
          exact ⟨Or.inr rfl, Option.isNone_iff_eq_none.1 hcond.1.2, k, hk⟩
        · simp at h
    · simp at h

theorem castlingMoves_eq_of_some {b : Board} {ep : Option Pos} {f : Pos} {k : Piece}
    (hk : getPiece b f = some k) :
    castlingMoves b ep f =
      (if (!k.hasMoved && !isInCheck b ep k.color) = true then
        (if (unmovedAt b ⟨f.row, 7⟩ && (getPiece b ⟨f.row, 5⟩).isNone
            && (getPiece b ⟨f.row, 6⟩).isNone) = true then
          [(⟨f.row, 6⟩ : Pos)]
        else []) ++
        (if (unmovedAt b ⟨f.row, 0⟩ && (getPiece b ⟨f.row, 1⟩).isNone
            && (getPiece b ⟨f.row, 2⟩).isNone && (getPiece b ⟨f.row, 3⟩).isNone) = true then
          [(⟨f.row, 2⟩ : Pos)]
        else [])
      else []) := by
  unfold castlingMoves
  rw [hk]

theorem castlingMoves_kingside_iff {b : Board} {ep : Option Pos} {f : Pos} {k : Piece}
    (hk : getPiece b f = some k) :
    (⟨f.row, 6⟩ : Pos) ∈ castlingMoves b ep f ↔
      (k.hasMoved = false ∧ isInCheck b ep k.color = false ∧
        (∃ r, getPiece b ⟨f.row, 7⟩ = some r ∧ r.hasMoved = false) ∧
        getPiece b ⟨f.row, 5⟩ = none ∧ getPiece b ⟨f.row, 6⟩ = none) := by
  rw [castlingMoves_eq_of_some hk]
  by_cases h1 : (!k.hasMoved && !isInCheck b ep k.color) = true
  · rw [if_pos h1]
    rw [Bool.and_eq_true, Bool.not_eq_true', Bool.not_eq_true'] at h1
    rw [List.mem_append]
    by_cases h2 : (unmovedAt b ⟨f.row, 7⟩ && (getPiece b ⟨f.row, 5⟩).isNone
        && (getPiece b ⟨f.row, 6⟩).isNone) = true
    · rw [if_pos h2]
      rw [Bool.and_eq_true, Bool.and_eq_true, Option.isNone_iff_eq_none,
        Option.isNone_iff_eq_none] at h2
      constructor
      · intro _
        exact ⟨h1.1, h1.2, unmovedAt_iff.1 h2.1.1, h2.1.2, h2.2⟩
      · intro _
        exact Or.inl (List.mem_singleton.2 rfl)
    · rw [if_neg h2]
      constructor
      · intro h
        exfalso
        rcases h with h | h
        · simp at h
        · split at h
          · rcases List.mem_singleton.1 h with heq
            simp at heq
          · simp at h
      · rintro ⟨_, _, hr, h5, h6⟩
        exact absurd (by rw [unmovedAt_iff.2 hr, h5, h6]; rfl) h2
  · rw [if_neg h1]
    constructor
    · intro h; simp at h
    · rintro ⟨hm, hc, _⟩
      exact absurd (by rw [hm, hc]; rfl) h1

theorem castlingMoves_queenside_iff {b : Board} {ep : Option Pos} {f : Pos} {k : Piece}
    (hk : getPiece b f = some k) :
    (⟨f.row, 2⟩ : Pos) ∈ castlingMoves b ep f ↔
      (k.hasMoved = false ∧ isInCheck b ep k.color = false ∧
        (∃ r, getPiece b ⟨f.row, 0⟩ = some r ∧ r.hasMoved = false) ∧
        getPiece b ⟨f.row, 1⟩ = none ∧ getPiece b ⟨f.row, 2⟩ = none ∧
        getPiece b ⟨f.row, 3⟩ = none) := by
  rw [castlingMoves_eq_of_some hk]
  by_cases h1 : (!k.hasMoved && !isInCheck b ep k.color) = true
  · rw [if_pos h1]
    rw [Bool.and_eq_true, Bool.not_eq_true', Bool.not_eq_true'] at h1
    rw [List.mem_append]
    by_cases h2 : (unmovedAt b ⟨f.row, 0⟩ && (getPiece b ⟨f.row, 1⟩).isNone
        && (getPiece b ⟨f.row, 2⟩).isNone && (getPiece b ⟨f.row, 3⟩).isNone) = true
    · rw [if_pos h2]
      rw [Bool.and_eq_true, Bool.and_eq_true, Bool.and_eq_true, Option.isNone_iff_eq_none,
        Option.isNone_iff_eq_none, Option.isNone_iff_eq_none] at h2
      constructor
      · intro _
        exact ⟨h1.1, h1.2, unmovedAt_iff.1 h2.1.1.1, h2.1.1.2, h2.1.2, h2.2⟩
      · intro _
        exact Or.inr (List.mem_singleton.2 rfl)
    · rw [if_neg h2]
      constructor
      · intro h
        exfalso
        rcases h with h | h
        · split at h
          · rcases List.mem_singleton.1 h with heq
            simp at heq
          · simp at h
        · simp at h
      · rintro ⟨_, _, hr, h3, h4, h5⟩
        exact absurd (by rw [unmovedAt_iff.2 hr, h3, h4, h5]; rfl) h2
  · rw [if_neg h1]
    constructor
    · intro h; simp at h
    · rintro ⟨hm, hc, _⟩
      exact absurd (by rw [hm, hc]; rfl) h1

theorem mem_rayWalk_ne {b : Board} {fc : PieceColor} {f : Pos} {d : Int × Int} {t : Pos}
    {n : Nat} (hray : t ∈ rayWalk b fc f d n) (hd : d.1 ≠ 0 ∨ d.2 ≠ 0) : t ≠ f := by
  have m := mem_rayWalk_mono hray
  intro heq
  subst heq
  rcases hd with hd | hd
  · rcases lt_or_gt_of_ne hd with hlt | hgt
    · have := m.2.1 hlt; omega
    · have := m.1 hgt; omega
  · rcases lt_or_gt_of_ne hd with hlt | hgt
    · have := m.2.2.2 hlt; omega
    · have := m.2.2.1 hgt; omega

theorem mem_getRookMoves {b : Board} {f t : Pos} (h : t ∈ getRookMoves b f) :
    isValidPosition t = true ∧ t ≠ f := by
  unfold getRookMoves at h
  split at h
  · simp at h
  · rw [List.mem_flatMap] at h
    obtain ⟨d, hd, hray⟩ := h
    refine ⟨mem_rayWalk_valid hray, mem_rayWalk_ne hray ?_⟩
    fin_cases hd <;> simp

theorem mem_getBishopMoves {b : Board} {f t : Pos} (h : t ∈ getBishopMoves b f) :
    isValidPosition t = true ∧ t ≠ f := by
  unfold getBishopMoves at h
  split at h
  · simp at h
  · rw [List.mem_flatMap] at h
    obtain ⟨d, hd, hray⟩ := h
    refine ⟨mem_rayWalk_valid hray, mem_rayWalk_ne hray ?_⟩
    fin_cases hd <;> simp

theorem mem_offsetMoves_ne {b : Board} {f : Pos} {offs : List (Int × Int)} {t : Pos}
    (h : t ∈ offsetMoves b f offs) (hoffs : ∀ d ∈ offs, d.1 ≠ 0 ∨ d.2 ≠ 0) : t ≠ f := by
  obtain ⟨_, d, hd, hr, hc⟩ := mem_offsetMoves h
  intro heq
  subst heq
  rcases hoffs d hd with h0 | h0 <;> omega

theorem mem_kingStepMoves {b : Board} {f t : Pos} (h : t ∈ kingStepMoves b f) :
    isValidPosition t = true ∧ t ≠ f := by
  refine ⟨(mem_offsetMoves h).1, mem_offsetMoves_ne h ?_⟩
  intro d hd
  fin_cases hd <;> simp

theorem mem_getKnightMoves {b : Board} {f t : Pos} (h : t ∈ getKnightMoves b f) :
    isValidPosition t = true ∧ t ≠ f := by
  refine ⟨(mem_offsetMoves h).1, mem_offsetMoves_ne h ?_⟩
  intro d hd
  fin_cases hd <;> simp

theorem getKingMoves_attack (b : Board) (ep : Option Pos) (f : Pos) :
    getKingMoves b ep f true = kingStepMoves b f := by
  simp [getKingMoves]

theorem getKingMoves_full (b : Board) (ep : Option Pos) (f : Pos) :
    getKingMoves b ep f false = kingStepMoves b f ++ castlingMoves b ep f := by
  simp [getKingMoves]

theorem calculate_attack_eq (b : Board) (ep : Option Pos) (f : Pos) (q : Piece) :
    calculatePossibleMoves b ep f q true = attackMoves b ep f q := by
  cases hq : q.type <;> simp [calculatePossibleMoves, attackMoves, hq, getKingMoves]

theorem calculate_mode_eq_of_not_king (b : Board) (ep : Option Pos) (f : Pos) (q : Piece)
    (h : q.type ≠ .king) (m1 m2 : Bool) :
    calculatePossibleMoves b ep f q m1 = calculatePossibleMoves b ep f q m2 := by
  cases hq : q.type <;> simp [calculatePossibleMoves, hq]
  exact absurd hq h

theorem mem_calculate_valid {b : Board} {ep : Option Pos} {f : Pos} {q : Piece} {t : Pos}
    (hWF : WFBoard b) (h : t ∈ calculatePossibleMoves b ep f q false) :
    isValidPosition t = true := by
  unfold calculatePossibleMoves at h
  split at h
  · exact (mem_getPawnMoves h).1
  · exact (mem_getRookMoves h).1
  · exact (mem_getKnightMoves h).1
  · exact (mem_getBishopMoves h).1
  · rw [List.mem_append] at h
    rcases h with h | h
    · exact (mem_getRookMoves h).1
    · exact (mem_getBishopMoves h).1
  · rw [getKingMoves_full, List.mem_append] at h
    rcases h with h | h
    · exact (mem_kingStepMoves h).1
    · obtain ⟨ht, _, k, hk⟩ := mem_castlingMoves_char h
      have hv := getPiece_valid_of_WF hWF hk
      simp only [isValidPosition, Bool.and_eq_true, decide_eq_true_eq] at hv ⊢
      rcases ht with rfl | rfl <;>
        exact ⟨⟨⟨hv.1.1.1, hv.1.1.2⟩, by norm_num⟩, by norm_num⟩

theorem mem_calculate_ne {b : Board} {ep : Option Pos} {f : Pos} {q : Piece} {t : Pos}
    (h : t ∈ calculatePossibleMoves b ep f q false) : t ≠ f := by
  unfold calculatePossibleMoves at h
  split at h
  · obtain ⟨_, hrow⟩ := mem_getPawnMoves h
    intro heq
    subst heq
    rcases hrow with hrow | ⟨_, hrow⟩ <;> by_cases hc : q.color = .white <;>
      simp [hc] at hrow
  · exact (mem_getRookMoves h).2
  · exact (mem_getKnightMoves h).2
  · exact (mem_getBishopMoves h).2
  · rw [List.mem_append] at h
    rcases h with h | h
    · exact (mem_getRookMoves h).2
    · exact (mem_getBishopMoves h).2
  · rw [getKingMoves_full, List.mem_append] at h
    rcases h with h | h
    · exact (mem_kingStepMoves h).2
    · obtain ⟨_, hnone, k, hk⟩ := mem_castlingMoves_char h
      intro heq
      rw [heq, hk] at hnone
      cases hnone

theorem mem_getPossibleMoves_char {s : GameState} {f t : Pos}
    (h : t ∈ getPossibleMoves s f) :
    ∃ q, getPiece s.board f = some q ∧ q.color = s.currentPlayer ∧
      t ∈ calculatePossibleMoves s.board s.enPassantTarget f q false ∧
      wouldBeInCheck s.board s.enPassantTarget f t = false := by
  unfold getPossibleMoves at h
  split at h
  · simp at h
  · rename_i q hq
    split at h
    · simp at h
    · rename_i hc
      rw [List.mem_filter] at h
      refine ⟨q, hq, by simpa using hc, h.1, ?_⟩
      have h2 := h.2
      rwa [Bool.not_eq_true'] at h2

theorem mem_getPossibleMoves_valid {s : GameState} {f t : Pos} (hWF : WFBoard s.board)
    (h : t ∈ getPossibleMoves s f) : isValidPosition t = true := by
  obtain ⟨q, _, _, hcalc, _⟩ := mem_getPossibleMoves_char h
  exact mem_calculate_valid hWF hcalc

theorem mem_getPossibleMoves_ne {s : GameState} {f t : Pos}
    (h : t ∈ getPossibleMoves s f) : t ≠ f := by
  obtain ⟨q, _, _, hcalc, _⟩ := mem_getPossibleMoves_char h
  exact mem_calculate_ne hcalc

theorem pawn_two_step_rows {b : Board} {ep : Option Pos} {f : Pos} {c : PieceColor} {t : Pos}
    (h : t ∈ getPawnMoves b ep f c) (h2 : (t.row - f.row).natAbs = 2) :
    t.row = 4 ∨ t.row = 3 := by
  obtain ⟨_, hrow⟩ := mem_getPawnMoves h
  rcases hrow with hrow | ⟨hsr, hrow⟩
  · by_cases hc : c = .white <;> simp [hc] at hrow <;> omega
  · by_cases hc : c = .white <;> simp [hc] at hsr hrow <;> omega

/-! ## Special-move and executor lemmas -/

theorem promoStep_fields (m : Move) (promo : Option PieceType) :
    (promoStep m promo).fromSq = m.fromSq ∧ (promoStep m promo).toSq = m.toSq ∧
      (promoStep m promo).piece.color = m.piece.color ∧
      (promoStep m promo).piece.hasMoved = m.piece.hasMoved ∧
      (promoStep m promo).piece.type = promoType m.piece m.toSq promo := by
  unfold promoStep promoType
  split
  · exact ⟨rfl, rfl, rfl, rfl, rfl⟩
  · exact ⟨rfl, rfl, rfl, rfl, rfl⟩

theorem castleStep_fields (b : Board) (m : Move) :
    (castleStep b m).1.fromSq = m.fromSq ∧ (castleStep b m).1.toSq = m.toSq ∧
      (castleStep b m).1.piece = m.piece := by
  unfold castleStep
  split
  · split <;> exact ⟨rfl, rfl, rfl⟩
  · exact ⟨rfl, rfl, rfl⟩

theorem epStep_fields (b : Board) (ep : Option Pos) (m : Move) :
    (epStep b ep m).1.fromSq = m.fromSq ∧ (epStep b ep m).1.toSq = m.toSq ∧
      (epStep b ep m).1.piece = m.piece := by
  unfold epStep
  cases ep with
  | none => exact ⟨rfl, rfl, rfl⟩
  | some e =>
    dsimp only
    by_cases h : m.piece.type = .pawn ∧ m.toSq.row = e.row ∧ m.toSq.col = e.col
    · rw [if_pos h]
      exact ⟨rfl, rfl, rfl⟩
    · rw [if_neg h]
      exact ⟨rfl, rfl, rfl⟩

theorem handleSpecialMoves_decompose (b : Board) (ep : Option Pos) (m : Move)
    (promo : Option PieceType) :
    handleSpecialMoves b ep m promo =
      epStep (castleStep b (promoStep m promo)).2 ep (castleStep b (promoStep m promo)).1 :=
  rfl

theorem handleSpecialMoves_move_fields (b : Board) (ep : Option Pos) (m : Move)
    (promo : Option PieceType) :
    (handleSpecialMoves b ep m promo).1.fromSq = m.fromSq ∧
      (handleSpecialMoves b ep m promo).1.toSq = m.toSq ∧
      (handleSpecialMoves b ep m promo).1.piece.color = m.piece.color ∧
      (handleSpecialMoves b ep m promo).1.piece.type = promoType m.piece m.toSq promo := by
  rw [handleSpecialMoves_decompose]
  obtain ⟨p1, p2, p3, p4, p5⟩ := promoStep_fields m promo
  obtain ⟨c1, c2, c3⟩ := castleStep_fields b (promoStep m promo)
  obtain ⟨e1, e2, e3⟩ :=
    epStep_fields (castleStep b (promoStep m promo)).2 ep (castleStep b (promoStep m promo)).1
  refine ⟨?_, ?_, ?_, ?_⟩
  · rw [e1, c1, p1]
  · rw [e2, c2, p2]
  · rw [e3, c3, p3]
  · rw [e3, c3, p5]

theorem castleStep_board_cases (b : Board) (m : Move) :
    (¬(m.piece.type = .king ∧ (m.toSq.col - m.fromSq.col).natAbs = 2) ∧
      castleStep b m = (m, b)) ∨
    ((m.piece.type = .king ∧ (m.toSq.col - m.fromSq.col).natAbs = 2) ∧
      (castleStep b m).1 = { m with isCastling := true } ∧
      (m.fromSq.col < m.toSq.col ∧
        (castleStep b m).2 =
          setPiece (setPiece b ⟨m.fromSq.row, 5⟩ (getPiece b ⟨m.fromSq.row, 7⟩))
            ⟨m.fromSq.row, 7⟩ none ∨
       ¬m.fromSq.col < m.toSq.col ∧
        (castleStep b m).2 =
          setPiece (setPiece b ⟨m.fromSq.row, 3⟩ (getPiece b ⟨m.fromSq.row, 0⟩))
            ⟨m.fromSq.row, 0⟩ none)) := by
  unfold castleStep
  split
  · rename_i hcond
    split
    · rename_i hk
      exact Or.inr ⟨hcond, rfl, Or.inl ⟨hk, rfl⟩⟩
    · rename_i hk
      exact Or.inr ⟨hcond, rfl, Or.inr ⟨hk, rfl⟩⟩
  · rename_i hcond
    exact Or.inl ⟨hcond, rfl⟩

theorem epStep_board_cases (b : Board) (ep : Option Pos) (m : Move) :
    (¬(m.piece.type = .pawn ∧ ep = some m.toSq) ∧ epStep b ep m = (m, b)) ∨
    ((m.piece.type = .pawn ∧ ep = some m.toSq) ∧
      (epStep b ep m).1 =
        { m with
            isEnPassant := true
            capturedPiece := getPiece b (epCapturedSq m.piece.color m.toSq) } ∧
      (epStep b ep m).2 = setPiece b (epCapturedSq m.piece.color m.toSq) none) := by
  unfold epStep
  cases ep with
  | none => exact Or.inl ⟨by simp, rfl⟩
  | some e =>
    dsimp only
    split
    · rename_i hcond
      refine Or.inr ⟨⟨hcond.1, ?_⟩, rfl, rfl⟩
      obtain ⟨er, ec⟩ := e
      obtain ⟨hr, hc⟩ := hcond.2
      simp only at hr hc
      rw [Option.some.injEq]
      cases hm : m.toSq
      rw [hm] at hr hc
      simp only at hr hc
      simp [hr, hc]
    · rename_i hcond
      refine Or.inl ⟨?_, rfl⟩
      rintro ⟨hp, hsome⟩
      rw [Option.some.injEq] at hsome
      exact hcond ⟨hp, by rw [← hsome], by rw [← hsome]⟩

theorem applyMove_board (s : GameState) (f t : Pos) (promo : Option PieceType) (q : Piece) :
    (applyMove s f t promo q).board =
      setPiece
        (setPiece (handleSpecialMoves s.board s.enPassantTarget (buildMove s.board f t q)
            promo).2
          t (some { q with hasMoved := true }))
        f none := rfl

theorem applyMove_enPassantTarget (s : GameState) (f t : Pos) (promo : Option PieceType)
    (q : Piece) :
    (applyMove s f t promo q).enPassantTarget =
      updateEnPassantTarget
        (handleSpecialMoves s.board s.enPassantTarget (buildMove s.board f t q) promo).1 :=
  rfl

theorem applyMove_currentPlayer (s : GameState) (f t : Pos) (promo : Option PieceType)
    (q : Piece) : (applyMove s f t promo q).currentPlayer = opposite s.currentPlayer := rfl

theorem applyMove_isGameOver (s : GameState) (f t : Pos) (promo : Option PieceType)
    (q : Piece) : (applyMove s f t promo q).isGameOver = s.isGameOver := rfl

theorem applyMove_winner (s : GameState) (f t : Pos) (promo : Option PieceType)
    (q : Piece) : (applyMove s f t promo q).winner = s.winner := rfl

theorem applyMove_gameHistory (s : GameState) (f t : Pos) (promo : Option PieceType)
    (q : Piece) :
    (applyMove s f t promo q).gameHistory =
      s.gameHistory ++
        [(handleSpecialMoves s.board s.enPassantTarget (buildMove s.board f t q) promo).1] :=
  rfl

theorem valid_of_mem_squaresList {p : Pos} (h : p ∈ squaresList) :
    isValidPosition p = true := by
  have hall : ∀ x ∈ squaresList, isValidPosition x = true := by decide
  exact hall p h

theorem mem_squaresList_of_valid {p : Pos} (h : isValidPosition p = true) :
    p ∈ squaresList := by
  simp only [isValidPosition, Bool.and_eq_true, decide_eq_true_eq] at h
  have hp : p = ⟨(p.row.toNat : Int), (p.col.toNat : Int)⟩ := by
    cases p with
    | mk r c =>
      simp only at h
      simp only [Pos.mk.injEq]
      constructor <;> omega
  rw [hp]
  have h1 : p.row.toNat < 8 := by omega
  have h2 : p.col.toNat < 8 := by omega
  revert h1 h2
  generalize p.row.toNat = r
  generalize p.col.toNat = c
  intro h1 h2
  interval_cases r <;> interval_cases c <;> decide

theorem mem_squaresList_iff {p : Pos} : p ∈ squaresList ↔ isValidPosition p = true :=
  ⟨valid_of_mem_squaresList, mem_squaresList_of_valid⟩

theorem hasValidMoves_iff {s : GameState} (hWF : WFBoard s.board) (c : PieceColor) :
    hasValidMoves s c = true ↔
      ∃ p q, getPiece s.board p = some q ∧ q.color = c ∧ getPossibleMoves s p ≠ [] := by
  unfold hasValidMoves
  rw [List.any_eq_true]
  constructor
  · rintro ⟨p, hp, hpred⟩
    cases hq : getPiece s.board p with
    | none => rw [hq] at hpred; cases hpred
    | some q =>
      rw [hq] at hpred
      simp only [Bool.and_eq_true, decide_eq_true_eq, Bool.not_eq_true'] at hpred
      refine ⟨p, q, hq, hpred.1, ?_⟩
      intro hnil
      rw [hnil] at hpred
      cases hpred.2
  · rintro ⟨p, q, hq, hc, hne⟩
    refine ⟨p, mem_squaresList_iff.2 (getPiece_valid_of_WF hWF hq), ?_⟩
    rw [hq]
    simp only [Bool.and_eq_true, decide_eq_true_eq, Bool.not_eq_true']
    refine ⟨hc, ?_⟩
    cases hl : getPossibleMoves s p with
    | nil => exact absurd hl hne
    | cons a l => rfl

theorem WFBoard_castleStep {b : Board} (hWF : WFBoard b) (m : Move) :
    WFBoard (castleStep b m).2 := by
  rcases castleStep_board_cases b m with ⟨_, he⟩ | ⟨_, _, ⟨_, he⟩ | ⟨_, he⟩⟩ <;> rw [he]
  · exact hWF
  · exact WFBoard_setPiece (WFBoard_setPiece hWF _ _) _ _
  · exact WFBoard_setPiece (WFBoard_setPiece hWF _ _) _ _

theorem WFBoard_epStep {b : Board} (hWF : WFBoard b) (ep : Option Pos) (m : Move) :
    WFBoard (epStep b ep m).2 := by
  rcases epStep_board_cases b ep m with ⟨_, he⟩ | ⟨_, _, he⟩
  · rw [he]; exact hWF
  · rw [he]; exact WFBoard_setPiece hWF _ _

theorem WFBoard_handleSpecialMoves {b : Board} (hWF : WFBoard b) (ep : Option Pos) (m : Move)
    (promo : Option PieceType) : WFBoard (handleSpecialMoves b ep m promo).2 := by
  rw [handleSpecialMoves_decompose]
  exact WFBoard_epStep (WFBoard_castleStep hWF _) _ _

theorem WFBoard_applyMove {s : GameState} (hWF : WFBoard s.board) (f t : Pos)
    (promo : Option PieceType) (q : Piece) : WFBoard (applyMove s f t promo q).board := by
  rw [applyMove_board]
  exact WFBoard_setPiece (WFBoard_setPiece (WFBoard_handleSpecialMoves hWF _ _ _) _ _) _ _

theorem WFBoard_initialGame : WFBoard initialGame.board := by
  constructor
  · rfl
  · decide

/-! ## Claim theorems -/

/-- C2 (amended): for every position and every destination in
`getLegalMoves` (= `getPossibleMoves`), simulating the move the way the
legality filter does — mover placed on the destination, origin cleared,
no special-move side effects — and testing `isInCheck` for the mover's
colour (before restoring) yields false.  The claim's original reading,
with the Move Executor's special-move side effects applied, is refuted by
`legality_soundness_cex`. -/
theorem legality_soundness_sim (s : GameState) (f t : Pos) (q : Piece)
    (hq : getPiece s.board f = some q) (h : t ∈ getPossibleMoves s f) :
    isInCheck (setPiece (setPiece s.board t (some q)) f none) s.enPassantTarget q.color
        = false ∧
      wouldBeInCheck s.board s.enPassantTarget f t = false := by
  obtain ⟨q2, hq2, _, _, hw⟩ := mem_getPossibleMoves_char h
  have hqq : q2 = q := Option.some_inj.mp (hq2.symm.trans hq)
  subst hqq
  refine ⟨?_, hw⟩
  unfold wouldBeInCheck at hw
  rw [hq2] at hw
  exact hw

/-- C2 witness. -/
theorem legality_soundness_sim_witness :
    wouldBeInCheck initialGame.board initialGame.enPassantTarget ⟨6, 4⟩ ⟨5, 4⟩ = false :=
  (legality_soundness_sim initialGame ⟨6, 4⟩ ⟨5, 4⟩ ⟨.pawn, .white, false⟩ (by rfl)
    (by decide)).2

/-- C3 counterexample: with the game not over and `from.row` outside the
board array, `this.getPiece(from)` evaluates `this.board[8][0]`, i.e.
`undefined[0]`, which raises a `TypeError` — modelled as `Except.error`.
The claim that `attemptMove` never raises on out-of-range caller input is
therefore false. -/
theorem attempt_move_crash_cex :
    makeMoveE initialGame ⟨8, 0⟩ ⟨4, 0⟩ none = Except.error () := rfl

/-- C3 (amended): `attemptMove` returns a boolean without raising whenever
the game is already finished (the early return fires first) or `from.row`
indexes an existing board row; in that case any out-of-range coordinate —
`from.col`, or any component of `to` — never matches a legal destination
and the call is absorbed as a rejected move with the state unchanged.
Only a `from.row` outside [0,7] on a live game reaches the raising
dereference (`attempt_move_crash_cex`). -/
theorem attempt_move_no_crash (s : GameState) (f t : Pos) (p : Option PieceType)
    (hWF : WFBoard s.board)
    (h : (0 ≤ f.row ∧ f.row < (s.board.length : Int)) ∨ s.isGameOver = true) :
    makeMoveE s f t p = Except.ok (makeMove s f t p) ∧
      (isValidPosition t = false → makeMove s f t p = (false, s)) := by
  constructor
  · by_cases hgo : s.isGameOver = true
    · unfold makeMoveE
      rw [if_pos hgo, makeMove_of_gameOver hgo]
    · have hr : 0 ≤ f.row ∧ f.row < (s.board.length : Int) := h.resolve_right hgo
      unfold makeMoveE
      rw [if_neg hgo, if_pos hr]
  · intro hvt
    rcases makeMove_cases s f t p with ⟨_, he⟩ | ⟨_, _, he⟩ | ⟨q, _, _, _, he⟩ |
      ⟨q, _, _, _, _, he⟩ | ⟨q, _, _, _, hmem, he⟩
    · exact he
    · exact he
    · exact he
    · exact he
    · have := mem_getPossibleMoves_valid hWF hmem
      rw [hvt] at this
      cases this

/-- C3 witness. -/
theorem attempt_move_no_crash_witness :
    makeMoveE initialGame ⟨6, 0⟩ ⟨-1, 5⟩ none = Except.ok (false, initialGame) := by
  have h := attempt_move_no_crash initialGame ⟨6, 0⟩ ⟨-1, 5⟩ none WFBoard_initialGame
    (Or.inl (by decide))
  rw [h.1, h.2 (by rfl)]

/-- C4: every failing `attemptMove` — game already finished, empty origin,
wrong-colour origin piece, or destination outside the legality-filtered
set — returns false with the state unchanged, and once `isFinished()` is
true every subsequent call (any whole sequence of calls) returns false
and leaves the state untouched. -/
theorem attempt_move_failure_atomic (s : GameState) (f t : Pos) (p : Option PieceType)
    (ms : List (Pos × Pos × Option PieceType)) :
    ((makeMove s f t p).1 = false → (makeMove s f t p).2 = s) ∧
    (s.isGameOver = true → makeMove s f t p = (false, s) ∧ (runMovesOk s ms).2 = s) ∧
    (getPiece s.board f = none → makeMove s f t p = (false, s)) ∧
    (∀ q, getPiece s.board f = some q → q.color ≠ s.currentPlayer →
      makeMove s f t p = (false, s)) ∧
    (t ∉ getPossibleMoves s f → makeMove s f t p = (false, s)) := by
  refine ⟨fun h => makeMove_fail_frame h, ?_, ?_, ?_, ?_⟩
  · intro hgo
    exact ⟨makeMove_of_gameOver hgo f t p, runMovesOk_of_gameOver hgo ms⟩
  · intro hnone
    rcases makeMove_cases s f t p with ⟨_, he⟩ | ⟨_, _, he⟩ | ⟨q, _, _, _, he⟩ |
      ⟨q, _, _, _, _, he⟩ | ⟨q, _, hq, _, _, he⟩
    · exact he
    · exact he
    · exact he
    · exact he
    · rw [hnone] at hq; cases hq
  · intro q hq hcol
    rcases makeMove_cases s f t p with ⟨_, he⟩ | ⟨_, _, he⟩ | ⟨q2, _, _, _, he⟩ |
      ⟨q2, _, _, _, _, he⟩ | ⟨q2, _, hq2, hcol2, _, he⟩
    · exact he
    · exact he
    · exact he
    · exact he
    · have hqq : q = q2 := Option.some_inj.mp (hq.symm.trans hq2)
      rw [← hqq] at hcol2
      exact absurd hcol2 hcol
  · intro hmem
    rcases makeMove_cases s f t p with ⟨_, he⟩ | ⟨_, _, he⟩ | ⟨q2, _, _, _, he⟩ |
      ⟨q2, _, _, _, _, he⟩ | ⟨q2, _, _, _, hmem2, he⟩
    · exact he
    · exact he
    · exact he
    · exact he
    · exact absurd hmem2 hmem

/-- C4 witness: a finished game rejects a single call and a whole
sequence of calls without touching the state. -/
theorem attempt_move_failure_atomic_witness :
    makeMove finishedGame ⟨6, 0⟩ ⟨5, 0⟩ none = (false, finishedGame) ∧
      (runMovesOk finishedGame seq9).2 = finishedGame :=
  (attempt_move_failure_atomic finishedGame ⟨6, 0⟩ ⟨5, 0⟩ none seq9).2.1 rfl

/-- C9: a successful `attemptMove` flips `getCurrentPlayer()` to the
opposite colour; a failed call leaves it unchanged. -/
theorem turn_alternation (s : GameState) (f t : Pos) (p : Option PieceType) :
    ((makeMove s f t p).1 = true →
      (makeMove s f t p).2.currentPlayer = opposite s.currentPlayer) ∧
    ((makeMove s f t p).1 = false →
      (makeMove s f t p).2.currentPlayer = s.currentPlayer) := by
  constructor
  · intro h
    obtain ⟨q, _, _, _, _, he⟩ := makeMove_succ_char h
    rw [he]
    show (checkGameEnd (applyMove s f t p q)).currentPlayer = opposite s.currentPlayer
    rw [checkGameEnd_currentPlayer, applyMove_currentPlayer]
  · intro h
    rw [makeMove_fail_frame h]

/-- C9 witness. -/
theorem turn_alternation_witness :
    (makeMove initialGame ⟨6, 4⟩ ⟨4, 4⟩ none).2.currentPlayer =
      opposite initialGame.currentPlayer :=
  (turn_alternation initialGame ⟨6, 4⟩ ⟨4, 4⟩ none).1 (by rfl)

/-- C6 (amended): attack-only mode never generates castling candidates and
that is the only difference between the two generation modes; in full
mode the two-square destination (col 6 kingside, col 2 queenside) is
generated exactly when the king-square piece has not moved, its colour is
not in check, the same-rank corner square holds some unmoved piece — the
generator checks neither that it is a rook nor its colour, which is what
`castling_generation_cex` exploits against the claim as written — and the
squares strictly between king and corner are empty. -/
theorem castling_generation (s : GameState) (f : Pos) (k : Piece)
    (hk : getPiece s.board f = some k) :
    (getKingMoves s.board s.enPassantTarget f true = kingStepMoves s.board f) ∧
    (∀ q : Piece, q.type ≠ .king → ∀ m1 m2 : Bool,
      calculatePossibleMoves s.board s.enPassantTarget f q m1 =
        calculatePossibleMoves s.board s.enPassantTarget f q m2) ∧
    (getKingMoves s.board s.enPassantTarget f false =
      kingStepMoves s.board f ++ castlingMoves s.board s.enPassantTarget f) ∧
    ((⟨f.row, 6⟩ : Pos) ∈ castlingMoves s.board s.enPassantTarget f ↔
      (k.hasMoved = false ∧ isInCheck s.board s.enPassantTarget k.color = false ∧
        (∃ r, getPiece s.board ⟨f.row, 7⟩ = some r ∧ r.hasMoved = false) ∧
        getPiece s.board ⟨f.row, 5⟩ = none ∧ getPiece s.board ⟨f.row, 6⟩ = none)) ∧
    ((⟨f.row, 2⟩ : Pos) ∈ castlingMoves s.board s.enPassantTarget f ↔
      (k.hasMoved = false ∧ isInCheck s.board s.enPassantTarget k.color = false ∧
        (∃ r, getPiece s.board ⟨f.row, 0⟩ = some r ∧ r.hasMoved = false) ∧
        getPiece s.board ⟨f.row, 1⟩ = none ∧ getPiece s.board ⟨f.row, 2⟩ = none ∧
        getPiece s.board ⟨f.row, 3⟩ = none)) :=
  ⟨getKingMoves_attack s.board s.enPassantTarget f,
   fun q hq m1 m2 => calculate_mode_eq_of_not_king s.board s.enPassantTarget f q hq m1 m2,
   getKingMoves_full s.board s.enPassantTarget f,
   castlingMoves_kingside_iff hk,
   castlingMoves_queenside_iff hk⟩

/-- C6 witness: at the fresh-game king square the two modes are related as
stated (and castling is not available, the in-between squares being
occupied). -/
theorem castling_generation_witness :
    getKingMoves initialGame.board initialGame.enPassantTarget ⟨7, 4⟩ true =
      kingStepMoves initialGame.board ⟨7, 4⟩ ∧
    castlingMoves initialGame.board initialGame.enPassantTarget ⟨7, 4⟩ = [] :=
  ⟨(castling_generation initialGame ⟨7, 4⟩ ⟨.king, .white, false⟩ (by rfl)).1, by decide⟩

/-- C6 counterexample: a never-moved white king on its home square with
the kingside path empty castles even though the corner piece is an
unmoved *black knight*, not "that side's rook" as the claim requires; the
move even survives the legality filter. -/
theorem castling_generation_cex :
    getPiece cex6.board ⟨7, 7⟩ = some ⟨.knight, .black, false⟩ ∧
    (⟨7, 6⟩ : Pos) ∈ castlingMoves cex6.board cex6.enPassantTarget ⟨7, 4⟩ ∧
    (⟨7, 6⟩ : Pos) ∈ getPossibleMoves cex6 ⟨7, 4⟩ := by
  refine ⟨rfl, by decide, by decide⟩

/-- C7: after every successful `attemptMove`, `enPassantTarget` is
recomputed from scratch: it is the passed-over square when the move just
made was a two-square pawn advance and empty otherwise.  In particular it
is non-empty only immediately after a double pawn push, and whatever
target existed before the move is consumed or cleared by it. -/
theorem enPassant_window (s : GameState) (f t : Pos) (p : Option PieceType) (q : Piece)
    (hq : getPiece s.board f = some q) (hs : (makeMove s f t p).1 = true) :
    (makeMove s f t p).2.enPassantTarget =
      (if q.type = .pawn ∧ (t.row - f.row).natAbs = 2 then
        some ⟨if q.color = .white then t.row + 1 else t.row - 1, t.col⟩
      else none) := by
  obtain ⟨q2, _, hq2, _, hmem, he⟩ := makeMove_succ_char hs
  have hqq : q2 = q := Option.some_inj.mp (hq2.symm.trans hq)
  subst hqq
  rw [he]
  show (checkGameEnd (applyMove s f t p q2)).enPassantTarget = _
  rw [checkGameEnd_enPassantTarget, applyMove_enPassantTarget]
  obtain ⟨hf, ht, hcol, htype⟩ := handleSpecialMoves_move_fields s.board s.enPassantTarget
    (buildMove s.board f t q2) p
  unfold updateEnPassantTarget
  rw [hf, ht, hcol, htype]
  have hbf : (buildMove s.board f t q2).fromSq = f := rfl
  have hbt : (buildMove s.board f t q2).toSq = t := rfl
  have hbp : (buildMove s.board f t q2).piece = q2 := rfl
  rw [hbf, hbt, hbp]
  by_cases hpromo : q2.type = .pawn ∧ (t.row = 0 ∨ t.row = 7)
  · obtain ⟨q3, hq3, _, hcalc, _⟩ := mem_getPossibleMoves_char hmem
    have hqq3 : q3 = q2 := Option.some_inj.mp (hq3.symm.trans hq2)
    subst hqq3
    have hpawnmem : t ∈ getPawnMoves s.board s.enPassantTarget f q3.color := by
      unfold calculatePossibleMoves at hcalc
      rw [hpromo.1] at hcalc
      exact hcalc
    have hno2 : (t.row - f.row).natAbs ≠ 2 := by
      intro h2
      have := pawn_two_step_rows hpawnmem h2
      rcases hpromo.2 with h0 | h0 <;> omega
    rw [if_neg (by exact fun hcon => hno2 hcon.2), if_neg (by exact fun hcon => hno2 hcon.2)]
  · have : promoType q2 t p = q2.type := by
      unfold promoType
      rw [if_neg hpromo]
    rw [this]

/-- C7 witness: the double push e2-e4 sets the passed-over square e3. -/
theorem enPassant_window_witness :
    (makeMove initialGame ⟨6, 4⟩ ⟨4, 4⟩ none).2.enPassantTarget = some ⟨5, 4⟩ := by
  have h := enPassant_window initialGame ⟨6, 4⟩ ⟨4, 4⟩ none ⟨.pawn, .white, false⟩
    (by rfl) (by rfl)
  rw [h]
  rfl

/-- C5: after a successful `attemptMove` (from a state whose winner slot
is empty, as in every live game) the game is Finished exactly when the
new current player has no piece with a legal destination; in that case
the winner is a draw iff that player is not in check and otherwise the
other colour; with a legal move available the game stays Playing with an
empty winner. -/
theorem game_end_evaluation (s : GameState) (f t : Pos) (p : Option PieceType)
    (hWF : WFBoard s.board) (hw : s.winner = none) (hs : (makeMove s f t p).1 = true) :
    ((makeMove s f t p).2.isGameOver = true ↔
      ¬∃ pos qq, getPiece (makeMove s f t p).2.board pos = some qq ∧
        qq.color = (makeMove s f t p).2.currentPlayer ∧
        getPossibleMoves (makeMove s f t p).2 pos ≠ []) ∧
    ((makeMove s f t p).2.isGameOver = true →
      (makeMove s f t p).2.winner =
        some (if isInCheck (makeMove s f t p).2.board (makeMove s f t p).2.enPassantTarget
            (makeMove s f t p).2.currentPlayer then
          GameWinner.color (opposite (makeMove s f t p).2.currentPlayer)
        else GameWinner.draw)) ∧
    ((makeMove s f t p).2.isGameOver = false → (makeMove s f t p).2.winner = none) := by
  obtain ⟨q, hgo, hq, hcol, hmem, he⟩ := makeMove_succ_char hs
  rw [he]
  dsimp only
  have hWF1 : WFBoard (applyMove s f t p q).board := WFBoard_applyMove hWF f t p q
  have hb := checkGameEnd_board (applyMove s f t p q)
  have hep := checkGameEnd_enPassantTarget (applyMove s f t p q)
  have hcp := checkGameEnd_currentPlayer (applyMove s f t p q)
  have hgp : getPossibleMoves (checkGameEnd (applyMove s f t p q)) =
      getPossibleMoves (applyMove s f t p q) := getPossibleMoves_congr hb hep hcp
  have hgo1 : (applyMove s f t p q).isGameOver = false := by
    rw [applyMove_isGameOver]
    exact hgo
  by_cases hv : hasValidMoves (applyMove s f t p q)
      (applyMove s f t p q).currentPlayer = true
  · have hid : checkGameEnd (applyMove s f t p q) = applyMove s f t p q :=
      (checkGameEnd_spec (applyMove s f t p q)).1 hv
    rw [hid]
    refine ⟨?_, ?_, ?_⟩
    · rw [hgo1]
      constructor
      · intro hcon
        exact absurd hcon (by simp)
      · intro hcon
        exfalso
        exact hcon ((hasValidMoves_iff hWF1 _).1 hv)
    · intro hcon
      rw [hgo1] at hcon
      exact absurd hcon (by simp)
    · intro _
      rw [applyMove_winner]
      exact hw
  · have hv2 : hasValidMoves (applyMove s f t p q)
        (applyMove s f t p q).currentPlayer = false := by
      revert hv
      cases hasValidMoves (applyMove s f t p q) (applyMove s f t p q).currentPlayer <;> simp
    obtain ⟨hgo2, hwin⟩ := (checkGameEnd_spec (applyMove s f t p q)).2 hv2
    refine ⟨?_, ?_, ?_⟩
    · rw [hgo2]
      constructor
      · intro _ hcon
        obtain ⟨pos, qq, h1, h2, h3⟩ := hcon
        rw [hb] at h1
        rw [hcp] at h2
        rw [hgp] at h3
        have hcontra : hasValidMoves (applyMove s f t p q)
            (applyMove s f t p q).currentPlayer = true :=
          (hasValidMoves_iff hWF1 _).2 ⟨pos, qq, h1, h2, h3⟩
        rw [hv2] at hcontra
        cases hcontra
      · intro _
        rfl
    · intro _
      rw [hwin, hb, hep, hcp]
    · intro hcon
      rw [hgo2] at hcon
      exact absurd hcon (by simp)

/-- C5 witness: after e2-e4 black still has legal moves, so the game
stays Playing and the winner slot stays empty. -/
theorem game_end_evaluation_witness :
    (makeMove initialGame ⟨6, 4⟩ ⟨4, 4⟩ none).2.winner = none :=
  (game_end_evaluation initialGame ⟨6, 4⟩ ⟨4, 4⟩ none WFBoard_initialGame rfl
    (by rfl)).2.2 (by rfl)

theorem handleSpecial_frame {b : Board} {ep : Option Pos} {f t : Pos} {q : Piece}
    {promo : Option PieceType} {x : Pos}
    (hx : x ∉ changedSquares ep f t q promo) :
    getPiece (handleSpecialMoves b ep (buildMove b f t q) promo).2 x = getPiece b x := by
  rw [handleSpecialMoves_decompose]
  have hm1f : (promoStep (buildMove b f t q) promo).fromSq = f :=
    (promoStep_fields (buildMove b f t q) promo).1
  have hm1t : (promoStep (buildMove b f t q) promo).toSq = t :=
    (promoStep_fields (buildMove b f t q) promo).2.1
  have hm1c : (promoStep (buildMove b f t q) promo).piece.color = q.color :=
    (promoStep_fields (buildMove b f t q) promo).2.2.1
  have hm1ty : (promoStep (buildMove b f t q) promo).piece.type = promoType q t promo :=
    (promoStep_fields (buildMove b f t q) promo).2.2.2.2
  have hm2f : (castleStep b (promoStep (buildMove b f t q) promo)).1.fromSq = f :=
    (castleStep_fields b (promoStep (buildMove b f t q) promo)).1.trans hm1f
  have hm2t : (castleStep b (promoStep (buildMove b f t q) promo)).1.toSq = t :=
    (castleStep_fields b (promoStep (buildMove b f t q) promo)).2.1.trans hm1t
  have hm2p : (castleStep b (promoStep (buildMove b f t q) promo)).1.piece =
      (promoStep (buildMove b f t q) promo).piece :=
    (castleStep_fields b (promoStep (buildMove b f t q) promo)).2.2
  have hCx : getPiece (castleStep b (promoStep (buildMove b f t q) promo)).2 x =
      getPiece b x := by
    rcases castleStep_board_cases b (promoStep (buildMove b f t q) promo) with
      ⟨_, heq⟩ | ⟨hcond, _, hwing⟩
    · rw [heq]
    · have htrig : promoType q t promo = .king ∧ (t.col - f.col).natAbs = 2 := by
        obtain ⟨hty, hdelta⟩ := hcond
        rw [hm1ty] at hty
        rw [hm1t, hm1f] at hdelta
        exact ⟨hty, hdelta⟩
      rcases hwing with ⟨hk, heq⟩ | ⟨hk, heq⟩
      · rw [hm1f, hm1t] at hk
        have hx5 : x ≠ ⟨f.row, 5⟩ := by
          intro hh
          apply hx
          rw [hh]
          simp only [changedSquares, List.mem_append]
          left
          right
          rw [if_pos htrig]
          unfold castleSquares
          rw [if_pos hk]
          exact List.mem_cons_self _ _
        have hx7 : x ≠ ⟨f.row, 7⟩ := by
          intro hh
          apply hx
          rw [hh]
          simp only [changedSquares, List.mem_append]
          left
          right
          rw [if_pos htrig]
          unfold castleSquares
          rw [if_pos hk]
          exact List.mem_cons_of_mem _ (List.mem_cons_self _ _)
        rw [heq, hm1f, getPiece_setPiece_ne hx7, getPiece_setPiece_ne hx5]
      · rw [hm1f, hm1t] at hk
        have hx3 : x ≠ ⟨f.row, 3⟩ := by
          intro hh
          apply hx
          rw [hh]
          simp only [changedSquares, List.mem_append]
          left
          right
          rw [if_pos htrig]
          unfold castleSquares
          rw [if_neg hk]
          exact List.mem_cons_self _ _
        have hx0 : x ≠ ⟨f.row, 0⟩ := by
          intro hh
          apply hx
          rw [hh]
          simp only [changedSquares, List.mem_append]
          left
          right
          rw [if_pos htrig]
          unfold castleSquares
          rw [if_neg hk]
          exact List.mem_cons_of_mem _ (List.mem_cons_self _ _)
        rw [heq, hm1f, getPiece_setPiece_ne hx0, getPiece_setPiece_ne hx3]
  rcases epStep_board_cases (castleStep b (promoStep (buildMove b f t q) promo)).2 ep
    (castleStep b (promoStep (buildMove b f t q) promo)).1 with
    ⟨_, heq⟩ | ⟨hcond, _, heq⟩
  · rw [heq]
    exact hCx
  · have htrig : promoType q t promo = .pawn ∧ ep = some t := by
      obtain ⟨hty, hepc⟩ := hcond
      rw [hm2p, hm1ty] at hty
      rw [hm2t] at hepc
      exact ⟨hty, hepc⟩
    have hcs : epCapturedSq
        (castleStep b (promoStep (buildMove b f t q) promo)).1.piece.color
        (castleStep b (promoStep (buildMove b f t q) promo)).1.toSq =
        epCapturedSq q.color t := by
      rw [hm2p, hm1c, hm2t]
    have hxcs : x ≠ epCapturedSq q.color t := by
      intro hh
      apply hx
      rw [hh]
      simp only [changedSquares, List.mem_append]
      right
      rw [if_pos htrig]
      exact List.mem_singleton.2 rfl
    rw [heq, hcs, getPiece_setPiece_ne hxcs]
    exact hCx

/-- C10: a successful `attemptMove(f, t)` changes no board square outside
`changedSquares` — origin, destination, the corner and rook-destination
squares when the executed move is a castling, and the captured pawn's
square when it is an en-passant capture; the origin is empty afterwards
and the destination holds the moving piece with `hasMoved = true` (and
its original type: the promotion branch rewrites only the history
record's copy). -/
theorem board_frame (s : GameState) (f t : Pos) (p : Option PieceType) (q : Piece)
    (hWF : WFBoard s.board) (hq : getPiece s.board f = some q)
    (hs : (makeMove s f t p).1 = true) :
    (∀ x : Pos, x ∉ changedSquares s.enPassantTarget f t q p →
      getPiece (makeMove s f t p).2.board x = getPiece s.board x) ∧
    getPiece (makeMove s f t p).2.board f = none ∧
    getPiece (makeMove s f t p).2.board t = some { q with hasMoved := true } := by
  obtain ⟨q2, hgo, hq2, hcol, hmem, he⟩ := makeMove_succ_char hs
  have hqq : q2 = q := Option.some_inj.mp (hq2.symm.trans hq)
  subst hqq
  rw [he]
  dsimp only
  rw [checkGameEnd_board, applyMove_board]
  have htne : t ≠ f := mem_getPossibleMoves_ne hmem
  have htv : isValidPosition t = true := mem_getPossibleMoves_valid hWF hmem
  have hfv : isValidPosition f = true := getPiece_valid_of_WF hWF hq
  have hWFB : WFBoard (handleSpecialMoves s.board s.enPassantTarget
      (buildMove s.board f t q2) p).2 := WFBoard_handleSpecialMoves hWF _ _ _
  refine ⟨?_, ?_, ?_⟩
  · intro x hx
    have hxf : x ≠ f := by
      intro hh
      apply hx
      rw [hh]
      simp [changedSquares]
    have hxt : x ≠ t := by
      intro hh
      apply hx
      rw [hh]
      simp [changedSquares]
    rw [getPiece_setPiece_ne hxf, getPiece_setPiece_ne hxt]
    exact handleSpecial_frame hx
  · exact getPiece_setPiece_valid_of_WF (WFBoard_setPiece hWFB t _) hfv
  · rw [getPiece_setPiece_ne htne]
    exact getPiece_setPiece_valid_of_WF hWFB htv

/-- C10 witness: after e2-e4 the origin is empty, the destination holds
the pawn with its moved flag set, and an untouched square (the white
king's) is unchanged. -/
theorem board_frame_witness :
    getPiece (makeMove initialGame ⟨6, 4⟩ ⟨4, 4⟩ none).2.board ⟨6, 4⟩ = none ∧
    getPiece (makeMove initialGame ⟨6, 4⟩ ⟨4, 4⟩ none).2.board ⟨4, 4⟩ =
      some { type := PieceType.pawn, color := PieceColor.white, hasMoved := true } ∧
    getPiece (makeMove initialGame ⟨6, 4⟩ ⟨4, 4⟩ none).2.board ⟨7, 4⟩ =
      getPiece initialGame.board ⟨7, 4⟩ := by
  have h := board_frame initialGame ⟨6, 4⟩ ⟨4, 4⟩ none ⟨.pawn, .white, false⟩
    WFBoard_initialGame (by rfl) (by rfl)
  exact ⟨h.2.1, h.2.2, h.1 ⟨7, 4⟩ (by decide)⟩

/-- C1 (code-bug evidence): in the 9-ply game `seq9` every call succeeds
and the last one moves the white a-pawn to b8 with no promotion choice.
The history records the promotion (piece type queen, `promotionPiece`
queen) because `handleSpecialMoves` rewrites the copied `move.piece`, but
the board write `board[to] = { ...piece, hasMoved: true }` spreads the
*original* `piece` object, so `getPieceAt` at the destination still
returns a pawn — the promoted queen never reaches the board. -/
theorem promotion_board_bug :
    (runMovesOk initialGame seq9).1 = true ∧
    getPiece (runMovesOk initialGame seq9).2.board ⟨0, 1⟩ =
      some { type := PieceType.pawn, color := PieceColor.white, hasMoved := true } ∧
    (runMovesOk initialGame seq9).2.gameHistory.getLast? =
      some { fromSq := ⟨1, 0⟩, toSq := ⟨0, 1⟩,
             piece := { type := PieceType.queen, color := PieceColor.white,
                        hasMoved := true },
             capturedPiece := some { type := PieceType.knight, color := PieceColor.black,
                                     hasMoved := false },
             isEnPassant := false, isCastling := false,
             promotionPiece := some PieceType.queen } := by
  refine ⟨rfl, rfl, rfl⟩

/-- C2 counterexample: after the 16-ply game `seq16` it is white to move
with the en-passant capture c5xb6 in the legality-filtered move list of
the pawn on c5; executing it succeeds, and testing `isInCheck` for the
mover's colour on the resulting state yields true — the executed capture
removed the black b-pawn that blocked the black rook's line to the white
king along the fifth rank, a side effect the filter's simulation does not
perform. -/
theorem legality_soundness_cex :
    (runMovesOk initialGame seq16).1 = true ∧
    (runMovesOk initialGame seq16).2.currentPlayer = PieceColor.white ∧
    (⟨2, 1⟩ : Pos) ∈ getPossibleMoves (runMovesOk initialGame seq16).2 ⟨3, 2⟩ ∧
    (makeMove (runMovesOk initialGame seq16).2 ⟨3, 2⟩ ⟨2, 1⟩ none).1 = true ∧
    isInCheck (makeMove (runMovesOk initialGame seq16).2 ⟨3, 2⟩ ⟨2, 1⟩ none).2.board
      (makeMove (runMovesOk initialGame seq16).2 ⟨3, 2⟩ ⟨2, 1⟩ none).2.enPassantTarget
      PieceColor.white = true := by
  refine ⟨rfl, rfl, by decide, rfl, rfl⟩
